import Mathlib

/-!
Verification of `cargo-extract-readme` (`src/main.rs`) against its
natural-language specification.

The program reads a rustdoc-json artifact, takes the root item's
documentation string, parses it into a stream of markdown events
(`pulldown_cmark`), rewrites two kinds of events (untyped fenced-code
starts get the hint `"rust"`; text inside a code block has lines starting
with `"# "` removed), and re-serializes the stream incrementally via
`pulldown_cmark_to_cmark::cmark_resume`, threading the serializer `State`
through the loop and calling `finalize` once at the end.

Strings are embedded as Lean `String`s, with the Rust `str` operations the
program uses (`str::lines`, `str::starts_with("# ")`, itertools
`join("\n")`) modelled structurally over `String.data : List Char` so that
everything evaluates by kernel reduction.
-/

/-- Rust `str::starts_with("# ")` on a line: the line begins with the
two-character prefix hash-space. -/
def startsWithHashSpace (l : List Char) : Bool :=
  List.isPrefixOf ['#', ' '] l

/-- Split a character list at every newline character, keeping every
segment (including a trailing empty segment after a final newline).
Joining the result back with `'\n'` reconstructs the input exactly. -/
def splitNl : List Char → List (List Char)
  | [] => [[]]
  | c :: cs =>
    if c = '\n' then [] :: splitNl cs
    else
      match splitNl cs with
      | [] => [[c]]
      | l :: ls => (c :: l) :: ls

/-- Remove a single trailing carriage return, if present; used to model
Rust `str::lines` treating `"\r\n"` as a line terminator. -/
def stripTrailingCr (l : List Char) : List Char :=
  if l.getLast? = some '\r' then l.dropLast else l

/-- Rust `str::lines`: split at `'\n'`; every segment other than the last
was newline-terminated, so a trailing `'\r'` is stripped from it; a final
empty segment (from a trailing newline) is dropped. -/
def rustLines (s : List Char) : List (List Char) :=
  let parts := splitNl s
  let init := parts.dropLast.map stripTrailingCr
  match parts.getLast? with
  | none => init
  | some last => if last = [] then init else init ++ [last]

/-- itertools `join("\n")`: concatenate the lines with single newline
separators. -/
def joinNl : List (List Char) → List Char
  | [] => []
  | [l] => l
  | l :: ls => l ++ '\n' :: joinNl ls

/-- The doctest-marker stripping applied to the content of a text event
inside a code block (`src/main.rs` lines 130-137):
`code_block.lines().filter(|line| !line.starts_with("# ")).join("\n")`. -/
def stripDoctestL (s : List Char) : List Char :=
  joinNl ((rustLines s).filter fun line => !startsWithHashSpace line)

/-- `stripDoctestL` lifted to `String`. -/
def stripDoctest (s : String) : String :=
  ⟨stripDoctestL s.data⟩

/-- `pulldown_cmark::CodeBlockKind`. -/
inductive CodeBlockKind where
  | indented
  | fenced (info : String)
deriving DecidableEq

/-- `pulldown_cmark::Tag` (the constructors relevant to this program;
every one is passed through untouched except `codeBlock`). -/
inductive Tag where
  | paragraph
  | heading (level : Nat)
  | blockQuote
  | codeBlock (kind : CodeBlockKind)
  | list (start : Option Nat)
  | item
  | footnoteDefinition (label : String)
  | emphasis
  | strong
  | strikethrough
  | link (dest : String) (title : String)
  | image (dest : String) (title : String)
deriving DecidableEq

/-- `pulldown_cmark::Event`. -/
inductive Event where
  | start (tag : Tag)
  | end' (tag : Tag)
  | text (s : String)
  | code (s : String)
  | html (s : String)
  | footnoteReference (label : String)
  | softBreak
  | hardBreak
  | rule
  | taskListMarker (checked : Bool)
deriving DecidableEq

/-- The kind of an event, forgetting its payload; used to state that the
transformer maps every event to an event of the same kind. -/
inductive EventKind where
  | startK
  | endK
  | textK
  | codeK
  | htmlK
  | footnoteReferenceK
  | softBreakK
  | hardBreakK
  | ruleK
  | taskListMarkerK
deriving DecidableEq

/-- Forget an event's payload. -/
def Event.kind : Event → EventKind
  | .start _ => .startK
  | .end' _ => .endK
  | .text _ => .textK
  | .code _ => .codeK
  | .html _ => .htmlK
  | .footnoteReference _ => .footnoteReferenceK
  | .softBreak => .softBreakK
  | .hardBreak => .hardBreakK
  | .rule => .ruleK
  | .taskListMarker _ => .taskListMarkerK

/-- The per-event rewrite performed by the `match` in `src/main.rs`
lines 122-139: an empty fenced-code hint becomes `"rust"`; the content of
a text event is doctest-stripped when the serializer state says we are in
a code block; every other event passes through unchanged. -/
def transformEvent (is_in_code_block : Bool) (event : Event) : Event :=
  match event with
  | .start (.codeBlock (.fenced hint)) =>
    if hint = "" then .start (.codeBlock (.fenced "rust")) else event
  | .text code_block =>
    if is_in_code_block then .text (stripDoctest code_block) else event
  | _ => event

/-- Modelled from the spec: the serializer collaborator
`pulldown_cmark_to_cmark` is not part of this repository; per spec §4.2
its exposed `is_in_code_block` flag is set `true` on a fenced-code-block
start event and `false` on its matching end event, and is otherwise
carried unchanged. -/
def updateInCodeBlock (flag : Bool) : Event → Bool
  | .start (.codeBlock (.fenced _)) => true
  | .end' (.codeBlock (.fenced _)) => false
  | _ => flag

/-- Modelled from the spec: the serializer collaborator's carried
`State` (spec §3, §4.3) is opaque apart from the exposed
`is_in_code_block` flag; the opaque remainder is abstracted as the list
of events serialized so far (spec: the serializer needs "the immediately
preceding emitted content"). -/
structure State where
  is_in_code_block : Bool
  emitted : List Event
deriving DecidableEq

/-- Modelled from the spec: `State::default()`, the initial serializer
state, which is not inside a code block and has emitted nothing. -/
def State.default : State :=
  { is_in_code_block := false, emitted := [] }

/-- Modelled from the spec: one `cmark_resume` step — serialize one event
given the carried state, returning the updated state. -/
def cmark_resume (event : Event) (state : State) : State :=
  { is_in_code_block := updateInCodeBlock state.is_in_code_block event
    emitted := state.emitted ++ [event] }

/-- One operation performed against the serializer/sink: an `append` of
one event via `cmark_resume`, or the final `finalize` flush. -/
inductive SerOp where
  | append (e : Event)
  | finalizeOp
deriving DecidableEq

/-- The driving loop of `src/main.rs` lines 106-146: for each event,
transform it using the current state's `is_in_code_block` flag, then
serialize it, threading the returned state into the next step.  Returns
the final state. -/
def driveLoop (state : State) : List Event → State
  | [] => state
  | event :: events =>
    driveLoop (cmark_resume (transformEvent state.is_in_code_block event) state) events

/-- The sequence of serializer states the driving loop passes through:
the initial state, then the state returned by each step. -/
def stateTrace (state : State) : List Event → List State
  | [] => [state]
  | event :: events =>
    state :: stateTrace (cmark_resume (transformEvent state.is_in_code_block event) state) events

/-- The sequence of operations the driving loop performs against the
serializer: one `append` per input event (of the transformed event), in
order, followed by the single `finalize` call after the loop. -/
def driveLoopTrace (state : State) : List Event → List SerOp
  | [] => [SerOp.finalizeOp]
  | event :: events =>
    SerOp.append (transformEvent state.is_in_code_block event)
      :: driveLoopTrace (cmark_resume (transformEvent state.is_in_code_block event) state) events

/-- The event-level view of the transformer over a whole sequence: each
event is rewritten using the `is_in_code_block` flag accumulated over the
(transformed) events before it. -/
def processEvents (flag : Bool) : List Event → List Event
  | [] => []
  | event :: events =>
    let event2 := transformEvent flag event
    event2 :: processEvents (updateInCodeBlock flag event2) events

/-- The `is_in_code_block` flag consulted by the transformer at position
`i` of the event sequence (the flag after serializing the first `i`
transformed events). -/
def flagAt (flag : Bool) : List Event → Nat → Bool
  | _, 0 => flag
  | [], _ + 1 => flag
  | event :: events, i + 1 =>
    flagAt (updateInCodeBlock flag (transformEvent flag event)) events i

/-- Does this event start a fenced code block? -/
def isFencedStart : Event → Bool
  | .start (.codeBlock (.fenced _)) => true
  | _ => false

/-- Does this event end a fenced code block? -/
def isFencedEnd : Event → Bool
  | .end' (.codeBlock (.fenced _)) => true
  | _ => false

/-- Is this event a fenced-code-block delimiter (start or end)? -/
def isFenceMarker (e : Event) : Bool :=
  isFencedStart e || isFencedEnd e

/-- Well-nestedness of fenced-code delimiters as guaranteed by the
markdown source collaborator: starts and ends alternate (a start only
while closed, an end only while open), so code blocks never nest. -/
def fencesAlternate (open_ : Bool) : List Event → Bool
  | [] => true
  | e :: es =>
    if isFencedStart e then !open_ && fencesAlternate true es
    else if isFencedEnd e then open_ && fencesAlternate false es
    else fencesAlternate open_ es

/-- A prefix of the event stream ends inside a fenced code block: some
fenced-code start occurs in it and no fence delimiter follows that start.
Under `fencesAlternate` this says the positions after the prefix lie
between that start and its matching end. -/
def openFence (pre : List Event) : Prop :=
  ∃ (j : Nat) (e : Event), pre[j]? = some e ∧ isFencedStart e = true ∧
    ∀ (k : Nat) (e2 : Event), j < k → pre[k]? = some e2 → isFenceMarker e2 = false

/-- The running `is_in_code_block` value after serializing a list of
events (fold of `updateInCodeBlock`). -/
def lastFenceFlag (flag : Bool) (pre : List Event) : Bool :=
  pre.foldl updateInCodeBlock flag

/-- `rustdoc_types::Item`: only the `docs` field matters here. -/
structure Item where
  docs : Option String

/-- `rustdoc_types::Crate`: a root id and the item index.  The index is
modelled as a total map because the build collaborator guarantees the
root id is present (spec §4.1). -/
structure Crate where
  root : Nat
  index : Nat → Item

/-- `pulldown_cmark::LinkType`. -/
inductive LinkType where
  | inline
  | referenceLink
  | referenceUnknown
  | collapsed
  | collapsedUnknown
  | shortcut
  | shortcutUnknown
  | autolink
  | email
deriving DecidableEq

/-- `pulldown_cmark::BrokenLink`: the data handed to the broken-link
callback. -/
structure BrokenLink where
  span : Nat × Nat
  link_type : LinkType
  reference : String
deriving DecidableEq

/-- A structured warning record, as emitted by the `warn!` macro call in
the callback. -/
structure Warning where
  span : Nat × Nat
  link_type : LinkType
  reference : String
deriving DecidableEq

/-- The broken-link callback of `src/main.rs` lines 112-119: record a
warning carrying the span, link type and reference label, and return no
replacement (`None`). -/
def broken_link_callback (bl : BrokenLink) : Warning × Option (String × String) :=
  ({ span := bl.span, link_type := bl.link_type, reference := bl.reference }, none)

/-- The pipeline from the deserialized crate onward (`src/main.rs` lines
103-147): look up the root item's docs; if absent, fail with the
`bail!` message before writing anything; otherwise parse the docs into
events (the parse collaborator is a parameter) and run the driving loop,
producing the sequence of serializer operations. -/
def pipeline (parse : String → List Event) (krate : Crate) : Except String (List SerOp) :=
  match (krate.index krate.root).docs with
  | none => Except.error "root does not have any documentation"
  | some root_docs => Except.ok (driveLoopTrace State.default (parse root_docs))

/-- The run including broken-link reporting: the parse collaborator
invokes the callback once per unresolved reference-style link, in
document order; the warnings are observability output only, and the
serialization result is computed from the events alone. -/
def runWithBrokenLinks (events : List Event) (broken : List BrokenLink) :
    List Warning × Except String (List SerOp) :=
  (broken.map fun bl => (broken_link_callback bl).1,
   Except.ok (driveLoopTrace State.default events))

/-- The claim-side condition on one event: it is neither an empty-hint
fenced-code start nor a text event while `is_in_code_block` is true. -/
def passThroughEvent (flag : Bool) : Event → Bool
  | .start (.codeBlock (.fenced hint)) => !(hint = "")
  | .text _ => !flag
  | _ => true

/-- The claim-side condition for pass-through: the sequence contains no
empty-hint fenced-code start and no text event at a position where
`is_in_code_block` is true. -/
def passThrough (flag : Bool) : List Event → Bool
  | [] => true
  | e :: es => passThroughEvent flag e && passThrough (updateInCodeBlock flag e) es

theorem update_transform (flag : Bool) (e : Event) :
    updateInCodeBlock flag (transformEvent flag e) = updateInCodeBlock flag e := by
  cases e <;> try rfl
  case start tag =>
    cases tag <;> try rfl
    case codeBlock kind =>
      cases kind <;> try rfl
      case fenced info =>
        by_cases h : info = "" <;> simp [transformEvent, updateInCodeBlock, h]
  case text s =>
    by_cases h : flag <;> simp [transformEvent, updateInCodeBlock, h]

theorem transform_kind (flag : Bool) (e : Event) :
    (transformEvent flag e).kind = e.kind := by
  cases e <;> try rfl
  case start tag =>
    cases tag <;> try rfl
    case codeBlock kind =>
      cases kind <;> try rfl
      case fenced info =>
        by_cases h : info = "" <;> simp [transformEvent, Event.kind, h]
  case text s =>
    by_cases h : flag <;> simp [transformEvent, Event.kind, h]

theorem processEvents_length (flag : Bool) (es : List Event) :
    (processEvents flag es).length = es.length := by
  induction es generalizing flag with
  | nil => rfl
  | cons e es ih => simp [processEvents, ih]

theorem processEvents_getElem (flag : Bool) (es : List Event) (i : Nat) (e : Event)
    (h : es[i]? = some e) :
    (processEvents flag es)[i]? = some (transformEvent (flagAt flag es i) e) := by
  induction es generalizing flag i with
  | nil => simp at h
  | cons e0 es ih =>
    cases i with
    | zero =>
      simp at h
      subst h
      simp [processEvents, flagAt]
    | succ i =>
      simp at h
      simpa [processEvents, flagAt] using ih _ i h

theorem transform_of_passThroughEvent (flag : Bool) (e : Event)
    (h : passThroughEvent flag e = true) : transformEvent flag e = e := by
  cases e <;> try rfl
  case start tag =>
    cases tag <;> try rfl
    case codeBlock kind =>
      cases kind <;> try rfl
      case fenced info =>
        simp only [passThroughEvent, Bool.not_eq_true', decide_eq_false_iff_not] at h
        simp [transformEvent, h]
  case text s =>
    simp only [passThroughEvent, Bool.not_eq_true'] at h
    simp [transformEvent, h]

theorem processEvents_id (flag : Bool) (es : List Event)
    (h : passThrough flag es = true) : processEvents flag es = es := by
  induction es generalizing flag with
  | nil => rfl
  | cons e es ih =>
    rw [passThrough, Bool.and_eq_true] at h
    obtain ⟨h1, h2⟩ := h
    have he : transformEvent flag e = e := transform_of_passThroughEvent flag e h1
    calc processEvents flag (e :: es)
        = transformEvent flag e
            :: processEvents (updateInCodeBlock flag (transformEvent flag e)) es := rfl
      _ = e :: processEvents (updateInCodeBlock flag e) es := by rw [he]
      _ = e :: es := by rw [ih _ h2]

/-- Claim C1: while `in_code_block` is true, a text event's content is
split into lines, the lines beginning with the prefix hash-space are
dropped, and the rest are rejoined with newline separators; a line that
is exactly a bare hash survives the filter; the concrete example from
the spec strips the two marker lines. -/
theorem claim_c1 :
    (∀ s : String, transformEvent true (Event.text s)
        = Event.text ⟨joinNl ((rustLines s.data).filter fun line => !startsWithHashSpace line)⟩)
    ∧ transformEvent true (Event.text "# setup();\nfn main() \x7b\x7d\n# teardown();")
        = Event.text "fn main() \x7b\x7d"
    ∧ ∀ t : String, "#".data ∈ rustLines t.data →
        "#".data ∈ (rustLines t.data).filter fun line => !startsWithHashSpace line :=
  ⟨fun _ => rfl, by decide, fun _ ht => List.mem_filter.mpr ⟨ht, by decide⟩⟩

/-- Witness for C1 at a concrete input: the bare-hash line of
`"# x\n#"` survives the filter. -/
theorem claim_c1_witness :
    "#".data ∈ (rustLines "# x\n#".data).filter fun line => !startsWithHashSpace line :=
  claim_c1.2.2 "# x\n#" (by decide)

/-- Claim C2: a fenced-code start with an empty hint is rewritten to the
fixed default hint `"rust"`; a fenced-code start with any non-empty hint
passes through unchanged. -/
theorem claim_c2 (flag : Bool) (hint : String) (h : hint ≠ "") :
    transformEvent flag (Event.start (Tag.codeBlock (CodeBlockKind.fenced "")))
      = Event.start (Tag.codeBlock (CodeBlockKind.fenced "rust"))
    ∧ transformEvent flag (Event.start (Tag.codeBlock (CodeBlockKind.fenced hint)))
      = Event.start (Tag.codeBlock (CodeBlockKind.fenced hint)) := by
  constructor
  · simp [transformEvent]
  · simp [transformEvent, h]

/-- Witness for C2 at the concrete non-empty hint `"python"`. -/
theorem claim_c2_witness :
    transformEvent false (Event.start (Tag.codeBlock (CodeBlockKind.fenced "")))
      = Event.start (Tag.codeBlock (CodeBlockKind.fenced "rust"))
    ∧ transformEvent false (Event.start (Tag.codeBlock (CodeBlockKind.fenced "python")))
      = Event.start (Tag.codeBlock (CodeBlockKind.fenced "python")) :=
  claim_c2 false "python" (by decide)

/-- Claim C3: on an event sequence with no empty-hint fenced-code start
and no text event at a position where `in_code_block` is true, the
transformer is the identity. -/
theorem claim_c3 (es : List Event) (h : passThrough false es = true) :
    processEvents false es = es :=
  processEvents_id false es h

/-- Witness for C3 on a concrete sequence of pass-through events. -/
theorem claim_c3_witness :
    processEvents false [Event.start Tag.paragraph, Event.text "x", Event.end' Tag.paragraph]
      = [Event.start Tag.paragraph, Event.text "x", Event.end' Tag.paragraph] :=
  claim_c3 _ (by decide)

/-- Claim C5 counterexample: the claim says an absent *or empty*
documentation field fails fatally, but on a crate whose root item has
`docs = some ""` the pipeline succeeds (with empty output) instead of
failing. -/
theorem claim_c5_cex :
    pipeline (fun _ => []) ⟨0, fun _ => ⟨some ""⟩⟩ = Except.ok [SerOp.finalizeOp] := rfl

/-- Claim C5 (amended): for every artifact whose root item's
documentation field is *absent*, the pipeline fails fatally with the
"root does not have any documentation" condition, before any output is
produced (the error carries no serializer operations). -/
theorem claim_c5 (parse : String → List Event) (krate : Crate)
    (h : (krate.index krate.root).docs = none) :
    pipeline parse krate = Except.error "root does not have any documentation" := by
  simp [pipeline, h]

/-- Witness for the amended C5 on a concrete crate with absent docs. -/
theorem claim_c5_witness :
    pipeline (fun _ => []) ⟨0, fun _ => ⟨none⟩⟩
      = Except.error "root does not have any documentation" :=
  claim_c5 (fun _ => []) ⟨0, fun _ => ⟨none⟩⟩ rfl

/-- Claim C8: the broken-link callback returns no replacement and records
a warning carrying exactly the span, link type and reference label; the
serialization result of a run is the same whatever broken links were
reported, and a run never fails because of them. -/
theorem claim_c8 (bl : BrokenLink) (events : List Event)
    (broken broken2 : List BrokenLink) :
    (broken_link_callback bl).2 = none
    ∧ (broken_link_callback bl).1 = ⟨bl.span, bl.link_type, bl.reference⟩
    ∧ (runWithBrokenLinks events broken).2 = (runWithBrokenLinks events broken2).2
    ∧ ∀ msg : String, (runWithBrokenLinks events broken).2 ≠ Except.error msg := by
  refine ⟨rfl, rfl, rfl, fun msg => ?_⟩
  simp [runWithBrokenLinks]

/-- Claim C10: if the root item's documentation is present but equal to
the empty string, the pipeline does not fail with the missing-docs
condition; it runs to completion and produces the (empty) output. -/
theorem claim_c10 (parse : String → List Event) (krate : Crate)
    (h : (krate.index krate.root).docs = some "") (hp : parse "" = []) :
    pipeline parse krate = Except.ok [SerOp.finalizeOp] := by
  simp [pipeline, h, hp, driveLoopTrace]

/-- Witness for C10 on a concrete crate with empty-string docs. -/
theorem claim_c10_witness :
    pipeline (fun _ => []) ⟨0, fun _ => ⟨some ""⟩⟩ = Except.ok [SerOp.finalizeOp] :=
  claim_c10 (fun _ => []) ⟨0, fun _ => ⟨some ""⟩⟩ rfl rfl

/-- Claim C6: the transformer emits exactly one output event per input
event, in order (the event at position `i` of the output is the
transform of the event at position `i` of the input), and the transform
always preserves the event's kind. -/
theorem claim_c6 (flag : Bool) (es : List Event) :
    (processEvents flag es).length = es.length
    ∧ (∀ (i : Nat) (e : Event), es[i]? = some e →
        (processEvents flag es)[i]? = some (transformEvent (flagAt flag es i) e))
    ∧ ∀ (f : Bool) (e : Event), (transformEvent f e).kind = e.kind :=
  ⟨processEvents_length flag es,
   fun i e h => processEvents_getElem flag es i e h,
   fun f e => transform_kind f e⟩

/-- Witness for C6 on a concrete one-event sequence. -/
theorem claim_c6_witness :
    (processEvents false [Event.rule])[0]? = some Event.rule := by
  have h := (claim_c6 false [Event.rule]).2.1 0 Event.rule (by decide)
  exact h.trans (by decide)

theorem stateTrace_length (st : State) (es : List Event) :
    (stateTrace st es).length = es.length + 1 := by
  induction es generalizing st with
  | nil => rfl
  | cons e es ih => simp [stateTrace, ih]

theorem stateTrace_head (st : State) (es : List Event) :
    (stateTrace st es).head? = some st := by
  cases es <;> rfl

theorem stateTrace_ne_nil (st : State) (es : List Event) :
    stateTrace st es ≠ [] := by
  cases es <;> simp [stateTrace]

theorem stateTrace_getElem_zero (st : State) (es : List Event) :
    (stateTrace st es)[0]? = some st := by
  cases es <;> simp [stateTrace]

theorem stateTrace_chain (st : State) (es : List Event) (i : Nat) (s : State) (e : Event)
    (h1 : (stateTrace st es)[i]? = some s) (h2 : es[i]? = some e) :
    (stateTrace st es)[i+1]?
      = some (cmark_resume (transformEvent s.is_in_code_block e) s) := by
  induction es generalizing st i with
  | nil => simp at h2
  | cons e0 es ih =>
    have heq : stateTrace st (e0 :: es)
        = st :: stateTrace (cmark_resume (transformEvent st.is_in_code_block e0) st) es := rfl
    rw [heq] at h1 ⊢
    cases i with
    | zero =>
      simp only [List.getElem?_cons_zero, Option.some.injEq] at h1 h2
      subst h1
      subst h2
      simp only [List.getElem?_cons_succ]
      exact stateTrace_getElem_zero _ es
    | succ i =>
      simp only [List.getElem?_cons_succ] at h1 h2 ⊢
      exact ih _ i h1 h2

theorem stateTrace_getLast (st : State) (es : List Event) :
    (stateTrace st es).getLast? = some (driveLoop st es) := by
  induction es generalizing st with
  | nil => rfl
  | cons e es ih =>
    have heq : stateTrace st (e :: es)
        = st :: stateTrace (cmark_resume (transformEvent st.is_in_code_block e) st) es := rfl
    rw [heq]
    cases hT : stateTrace (cmark_resume (transformEvent st.is_in_code_block e) st) es with
    | nil => exact absurd hT (stateTrace_ne_nil _ _)
    | cons a t =>
      rw [List.getLast?_cons_cons, ← hT, ih]
      rfl

theorem driveLoopTrace_eq (st : State) (es : List Event) :
    driveLoopTrace st es
      = (processEvents st.is_in_code_block es).map SerOp.append ++ [SerOp.finalizeOp] := by
  induction es generalizing st with
  | nil => rfl
  | cons e es ih =>
    have h := ih (cmark_resume (transformEvent st.is_in_code_block e) st)
    calc driveLoopTrace st (e :: es)
        = SerOp.append (transformEvent st.is_in_code_block e)
            :: driveLoopTrace (cmark_resume (transformEvent st.is_in_code_block e) st) es := rfl
      _ = SerOp.append (transformEvent st.is_in_code_block e)
            :: ((processEvents
                  (updateInCodeBlock st.is_in_code_block (transformEvent st.is_in_code_block e))
                  es).map SerOp.append ++ [SerOp.finalizeOp]) := by rw [h]; rfl
      _ = (processEvents st.is_in_code_block (e :: es)).map SerOp.append ++ [SerOp.finalizeOp] := rfl

/-- Claim C7: the driving loop threads serializer state strictly
sequentially — the state trace begins with the initial state, has one
state per step, the state at step `i+1` is exactly `cmark_resume`
applied to the state at step `i` and the `i`-th (transformed) event, and
the loop's result is the last state of the trace; the operations
performed are one `append` per event, in order, followed by exactly one
`finalize` at the end. -/
theorem claim_c7 (es : List Event) :
    (stateTrace State.default es).head? = some State.default
    ∧ (stateTrace State.default es).length = es.length + 1
    ∧ (∀ (i : Nat) (s : State) (e : Event),
        (stateTrace State.default es)[i]? = some s → es[i]? = some e →
        (stateTrace State.default es)[i+1]?
          = some (cmark_resume (transformEvent s.is_in_code_block e) s))
    ∧ (stateTrace State.default es).getLast? = some (driveLoop State.default es)
    ∧ driveLoopTrace State.default es
        = (processEvents false es).map SerOp.append ++ [SerOp.finalizeOp] :=
  ⟨stateTrace_head _ _, stateTrace_length _ _,
   fun i s e h1 h2 => stateTrace_chain State.default es i s e h1 h2,
   stateTrace_getLast _ _, driveLoopTrace_eq State.default es⟩

/-- Witness for C7 on a concrete one-event sequence. -/
theorem claim_c7_witness :
    (stateTrace State.default [Event.rule])[1]?
      = some (cmark_resume (transformEvent false Event.rule) State.default) := by
  have h := (claim_c7 [Event.rule]).2.2.1 0 State.default Event.rule (by decide) (by decide)
  exact h.trans (by decide)

theorem update_eq_ite (flag : Bool) (e : Event) :
    updateInCodeBlock flag e
      = if isFencedStart e then true else if isFencedEnd e then false else flag := by
  cases e <;> try rfl
  case start tag =>
    cases tag <;> try rfl
    case codeBlock kind => cases kind <;> rfl
  case end' tag =>
    cases tag <;> try rfl
    case codeBlock kind => cases kind <;> rfl

theorem flagAt_eq_lastFenceFlag (flag : Bool) (es : List Event) (i : Nat) :
    flagAt flag es i = lastFenceFlag flag (es.take i) := by
  induction es generalizing flag i with
  | nil => cases i <;> rfl
  | cons e es ih =>
    cases i with
    | zero => rfl
    | succ i =>
      calc flagAt flag (e :: es) (i+1)
          = flagAt (updateInCodeBlock flag (transformEvent flag e)) es i := rfl
        _ = flagAt (updateInCodeBlock flag e) es i := by rw [update_transform]
        _ = lastFenceFlag (updateInCodeBlock flag e) (es.take i) := ih _ _
        _ = lastFenceFlag flag ((e :: es).take (i+1)) := rfl

theorem lastFenceFlag_append (flag : Bool) (pre : List Event) (e : Event) :
    lastFenceFlag flag (pre ++ [e]) = updateInCodeBlock (lastFenceFlag flag pre) e := by
  simp [lastFenceFlag, List.foldl_append]

theorem openFence_append_start (pre : List Event) (e : Event) (he : isFencedStart e = true) :
    openFence (pre ++ [e]) := by
  refine ⟨pre.length, e, List.getElem?_concat_length pre e, he, fun k e2 hk hke2 => ?_⟩
  have hlen : (pre ++ [e]).length ≤ k := by
    simp only [List.length_append, List.length_cons, List.length_nil]
    omega
  rw [List.getElem?_eq_none_iff.mpr hlen] at hke2
  cases hke2

theorem openFence_append_end (pre : List Event) (e : Event)
    (hs : isFencedStart e = false) (hm : isFenceMarker e = true) :
    ¬ openFence (pre ++ [e]) := by
  rintro ⟨j, e0, hj, hstart, hafter⟩
  rcases lt_trichotomy j pre.length with hlt | heqj | hgt
  · have hk := hafter pre.length e hlt (List.getElem?_concat_length pre e)
    simp [hk] at hm
  · subst heqj
    rw [List.getElem?_concat_length] at hj
    cases hj
    simp [hstart] at hs
  · have hlen : (pre ++ [e]).length ≤ j := by
      simp
      omega
    rw [List.getElem?_eq_none_iff.mpr hlen] at hj
    cases hj

theorem openFence_append_other (pre : List Event) (e : Event)
    (hm : isFenceMarker e = false) :
    openFence (pre ++ [e]) ↔ openFence pre := by
  constructor
  · rintro ⟨j, e0, hj, hstart, hafter⟩
    rcases lt_trichotomy j pre.length with hlt | heqj | hgt
    · rw [List.getElem?_append_left hlt] at hj
      refine ⟨j, e0, hj, hstart, fun k e2 hk hke2 => ?_⟩
      have hklt : k < pre.length := by
        by_contra hnk
        rw [List.getElem?_eq_none_iff.mpr (le_of_not_lt hnk)] at hke2
        cases hke2
      refine hafter k e2 hk ?_
      rw [List.getElem?_append_left hklt]
      exact hke2
    · subst heqj
      rw [List.getElem?_concat_length] at hj
      cases hj
      simp [isFenceMarker, hstart] at hm
    · have hlen : (pre ++ [e]).length ≤ j := by
        simp
        omega
      rw [List.getElem?_eq_none_iff.mpr hlen] at hj
      cases hj
  · rintro ⟨j, e0, hj, hstart, hafter⟩
    have hjlt : j < pre.length := by
      by_contra hnj
      rw [List.getElem?_eq_none_iff.mpr (le_of_not_lt hnj)] at hj
      cases hj
    refine ⟨j, e0, ?_, hstart, fun k e2 hk hke2 => ?_⟩
    · rw [List.getElem?_append_left hjlt]
      exact hj
    · rcases lt_trichotomy k pre.length with hklt | heqk | hkgt
      · refine hafter k e2 hk ?_
        rw [List.getElem?_append_left hklt] at hke2
        exact hke2
      · subst heqk
        rw [List.getElem?_concat_length] at hke2
        cases hke2
        exact hm
      · have hlen : (pre ++ [e]).length ≤ k := by
          simp
          omega
        rw [List.getElem?_eq_none_iff.mpr hlen] at hke2
        cases hke2

theorem lastFenceFlag_iff_openFence (pre : List Event) :
    lastFenceFlag false pre = true ↔ openFence pre := by
  induction pre using List.reverseRecOn with
  | nil =>
    simp only [lastFenceFlag, List.foldl_nil]
    constructor
    · intro h
      cases h
    · rintro ⟨j, e0, hj, h1, h2⟩
      simp at hj
  | append_singleton pre e ih =>
    rw [lastFenceFlag_append, update_eq_ite]
    by_cases hs : isFencedStart e = true
    · simp only [hs, if_true]
      exact iff_of_true trivial (openFence_append_start pre e hs)
    · have hs2 : isFencedStart e = false := by
        simp only [Bool.not_eq_true] at hs
        exact hs
      by_cases hEnd : isFencedEnd e = true
      · have hm : isFenceMarker e = true := by simp [isFenceMarker, hEnd]
        simp only [hs2, hEnd, Bool.false_eq_true, if_false, if_true]
        exact iff_of_false (by simp) (openFence_append_end pre e hs2 hm)
      · have hEnd2 : isFencedEnd e = false := by
          simp only [Bool.not_eq_true] at hEnd
          exact hEnd
        have hm : isFenceMarker e = false := by simp [isFenceMarker, hs2, hEnd2]
        rw [openFence_append_other pre e hm]
        simp only [hs2, hEnd2, Bool.false_eq_true, if_false]
        exact ih

/-- Claim C4: the `in_code_block` flag consulted by the transformer is
false initially; on a well-nested stream (fenced-code delimiters
alternate) it is true at position `i` exactly when the prefix before `i`
contains a fenced-code start with no later fence delimiter in that
prefix — i.e. exactly between a fenced-code start and its matching end —
and doctest stripping is applied to a text event exactly when this flag
is true there. -/
theorem claim_c4 (es : List Event) (h : fencesAlternate false es = true) :
    flagAt false es 0 = false
    ∧ (∀ i : Nat, i ≤ es.length → (flagAt false es i = true ↔ openFence (es.take i)))
    ∧ (∀ (i : Nat) (s : String), es[i]? = some (Event.text s) →
        (processEvents false es)[i]?
          = some (Event.text (if flagAt false es i then stripDoctest s else s))) := by
  refine ⟨by cases es <;> rfl, fun i hi => ?_, fun i s hi => ?_⟩
  · rw [flagAt_eq_lastFenceFlag]
    exact lastFenceFlag_iff_openFence (es.take i)
  · have hp := processEvents_getElem false es i (Event.text s) hi
    rw [hp]
    cases hf : flagAt false es i <;> simp [transformEvent, hf]

/-- Witness for C4: inside a concrete fenced code block, the text event
is stripped. -/
theorem claim_c4_witness :
    (processEvents false [Event.start (Tag.codeBlock (CodeBlockKind.fenced "rust")),
        Event.text "# a\nb", Event.end' (Tag.codeBlock (CodeBlockKind.fenced "rust"))])[1]?
      = some (Event.text "b") := by
  have h := (claim_c4 [Event.start (Tag.codeBlock (CodeBlockKind.fenced "rust")),
        Event.text "# a\nb", Event.end' (Tag.codeBlock (CodeBlockKind.fenced "rust"))]
      (by decide)).2.2 1 "# a\nb" (by decide)
  exact h.trans (by decide)

theorem splitNl_ne_nil (s : List Char) : splitNl s ≠ [] := by
  cases s with
  | nil => simp [splitNl]
  | cons c cs =>
    rw [splitNl]
    split
    · simp
    · split <;> simp

theorem joinNl_splitNl (s : List Char) : joinNl (splitNl s) = s := by
  induction s with
  | nil => rfl
  | cons c cs ih =>
    rw [splitNl]
    by_cases hc : c = '\n'
    · rw [if_pos hc]
      cases hsp : splitNl cs with
      | nil => exact absurd hsp (splitNl_ne_nil cs)
      | cons l ls =>
        show '\n' :: joinNl (l :: ls) = c :: cs
        rw [← hsp, ih, hc]
    · rw [if_neg hc]
      cases hsp : splitNl cs with
      | nil => exact absurd hsp (splitNl_ne_nil cs)
      | cons l ls =>
        rw [hsp] at ih
        cases ls with
        | nil =>
          have hl : l = cs := by simpa [joinNl] using ih
          simp [joinNl, hl]
        | cons l2 ls2 =>
          show c :: joinNl (l :: l2 :: ls2) = c :: cs
          rw [ih]

theorem length_joinNl (ls : List (List Char)) :
    (joinNl ls).length = (ls.map List.length).sum + (ls.length - 1) := by
  induction ls with
  | nil => rfl
  | cons l ls ih =>
    cases ls with
    | nil => simp [joinNl]
    | cons l2 ls2 =>
      show (l ++ '\n' :: joinNl (l2 :: ls2)).length
        = ((l :: l2 :: ls2).map List.length).sum + ((l :: l2 :: ls2).length - 1)
      simp only [List.length_append, List.length_cons, List.map_cons, List.sum_cons] at ih ⊢
      omega

theorem splitNl_getLast_of_newline (s : List Char) (h : s.getLast? = some '\n') :
    (splitNl s).getLast? = some [] := by
  induction s with
  | nil => simp at h
  | cons c cs ih =>
    cases cs with
    | nil =>
      simp at h
      simp [splitNl, h]
    | cons c2 cs2 =>
      rw [List.getLast?_cons_cons] at h
      have ihc := ih h
      rw [splitNl]
      by_cases hc : c = '\n'
      · rw [if_pos hc]
        cases hsp : splitNl (c2 :: cs2) with
        | nil => exact absurd hsp (splitNl_ne_nil _)
        | cons l ls =>
          rw [List.getLast?_cons_cons, ← hsp]
          exact ihc
      · rw [if_neg hc]
        cases hsp : splitNl (c2 :: cs2) with
        | nil => exact absurd hsp (splitNl_ne_nil _)
        | cons l ls =>
          cases ls with
          | nil =>
            rw [hsp] at ihc
            simp at ihc
            subst ihc
            have : (c2 :: cs2 : List Char) = [] := by
              have hjs := joinNl_splitNl (c2 :: cs2)
              rw [hsp] at hjs
              simpa [joinNl] using hjs.symm
            cases this
          | cons l2 ls2 =>
            rw [List.getLast?_cons_cons, ← List.getLast?_cons_cons (a := l), ← hsp]
            exact ihc

theorem sum_map_length_filter_le (p : List Char → Bool) (ls : List (List Char)) :
    ((ls.filter p).map List.length).sum ≤ (ls.map List.length).sum := by
  induction ls with
  | nil => simp
  | cons l ls ih =>
    rw [List.filter_cons]
    split
    · simp only [List.map_cons, List.sum_cons]
      omega
    · simp only [List.map_cons, List.sum_cons]
      omega

theorem length_joinNl_filter_le (p : List Char → Bool) (ls : List (List Char)) :
    (joinNl (ls.filter p)).length ≤ (joinNl ls).length := by
  rw [length_joinNl, length_joinNl]
  have h1 := sum_map_length_filter_le p ls
  have h2 := List.length_filter_le p ls
  omega

theorem stripTrailingCr_length_le (l : List Char) :
    (stripTrailingCr l).length ≤ l.length := by
  rw [stripTrailingCr]
  split
  · rw [List.length_dropLast]
    omega
  · exact le_refl _

theorem length_joinNl_map_stripCr_le (ls : List (List Char)) :
    (joinNl (ls.map stripTrailingCr)).length ≤ (joinNl ls).length := by
  rw [length_joinNl, length_joinNl]
  have h1 : ((ls.map stripTrailingCr).map List.length).sum ≤ (ls.map List.length).sum := by
    induction ls with
    | nil => simp
    | cons l ls ih =>
      simp only [List.map_cons, List.sum_cons]
      have := stripTrailingCr_length_le l
      omega
  have h2 : (ls.map stripTrailingCr).length = ls.length := List.length_map ls stripTrailingCr
  omega

theorem stripDoctestL_length_lt (s : List Char) (h : s.getLast? = some '\n') :
    (stripDoctestL s).length < s.length := by
  have hs_ne : s ≠ [] := by
    rintro rfl
    simp at h
  have hlast : (splitNl s).getLast? = some [] := splitNl_getLast_of_newline s h
  have hrl : rustLines s = (splitNl s).dropLast.map stripTrailingCr := by
    rw [rustLines, hlast]
    simp
  rw [stripDoctestL, hrl]
  have h1 := length_joinNl_filter_le (fun line => !startsWithHashSpace line)
    ((splitNl s).dropLast.map stripTrailingCr)
  have h2 := length_joinNl_map_stripCr_le (splitNl s).dropLast
  have hparts : splitNl s = (splitNl s).dropLast ++ [[]] :=
    (List.dropLast_append_getLast? [] hlast).symm
  have hP_ne : (splitNl s).dropLast ≠ [] := by
    intro hP
    rw [hP] at hparts
    have hjs := joinNl_splitNl s
    rw [hparts] at hjs
    simp [joinNl] at hjs
    exact hs_ne hjs
  have h3 : (joinNl (splitNl s).dropLast).length < s.length := by
    conv_rhs => rw [← joinNl_splitNl s, hparts]
    rw [length_joinNl, length_joinNl]
    have hsum : (((splitNl s).dropLast ++ [[]]).map List.length).sum
        = ((splitNl s).dropLast.map List.length).sum := by
      simp
    rw [hsum]
    have hlen : ((splitNl s).dropLast ++ [([] : List Char)]).length
        = (splitNl s).dropLast.length + 1 := by
      simp
    rw [hlen]
    have hPpos : 1 ≤ (splitNl s).dropLast.length := by
      cases hE : (splitNl s).dropLast with
      | nil => exact absurd hE hP_ne
      | cons a t => simp
    omega
  omega

/-- Claim C9: when a text event processed with `in_code_block` true has
content ending in a newline character, the output content is strictly
shorter than the input (the trailing newline is dropped by the
line-split-and-rejoin), so the event is not passed through
byte-identically. -/
theorem claim_c9 (s : String) (h : s.data.getLast? = some '\n') :
    (stripDoctest s).data.length < s.data.length
    ∧ transformEvent true (Event.text s) ≠ Event.text s := by
  have hlt := stripDoctestL_length_lt s.data h
  refine ⟨hlt, fun heq => ?_⟩
  have h2 : Event.text (stripDoctest s) = Event.text s := heq
  injection h2 with h3
  have h4 : stripDoctestL s.data = s.data := congrArg String.data h3
  rw [h4] at hlt
  exact lt_irrefl _ hlt

/-- Witness for C9 at the concrete newline-terminated content
`"fn main();\n"`. -/
theorem claim_c9_witness :
    (stripDoctest "fn main();\n").data.length < "fn main();\n".data.length :=
  (claim_c9 "fn main();\n" (by decide)).1
